import Mathlib

/-!
Verification of the Map Guessing Game (`src/app.py`).

The Python source is shallowly embedded:

* `normalize` models the pipeline `.strip().title()` used both by
  `load_data` (to build the `name_norm` column) and by `handle_guess`
  on the raw guess, with Python's ASCII title-casing semantics.
* `load_data` models the CSV loading plus `name_norm` computation.
* `turtle_to_pixel` models the coordinate transform, with `pyRound`
  modelling Python's `round` (banker's rounding, half to even).
* `render_map_with_labels` models the drawing loop: a list of draw
  commands (text plus position) instead of pixels; the PIL call
  `draw.textbbox((0, 0), text, font=font)` is abstracted as a function
  `textbbox : String → BBox`, and `.iloc[0]` on an empty selection is
  modelled by `Option` (`none` = the `IndexError` branch).
* `handle_guess` models the guess callback, producing the updated
  guessed list and the displayed outcome (`st.success` / `st.info` /
  `st.error` / nothing).
* The Streamlit session-state handling (map switch reset, reset
  button) is modelled as a transition system `step` over
  `GameSession`, with `Reachable` describing the states an actual
  session can be in.
* `missing_table` models the `missing.csv` export.
-/

namespace MapGame

/-- Python whitespace test restricted to ASCII (`str.strip` strips these). -/
def pyIsSpace (c : Char) : Bool :=
  c = ' ' || c = '\t' || c = '\n' || c = '\r' || c = '\x0b' || c = '\x0c'

/-- One character of Python `str.title()`: an alphabetic character is
uppercased when the previous character was not cased, lowercased otherwise;
other characters pass through. -/
def pyTitleChar (prevCased : Bool) (c : Char) : Char :=
  if c.isAlpha then (if prevCased then c.toLower else c.toUpper) else c

/-- Python `str.title()` over a character list, carrying the
"previous character was cased" flag (ASCII: cased = alphabetic). -/
def pyTitleAux : Bool → List Char → List Char
  | _, [] => []
  | prev, c :: cs => pyTitleChar prev c :: pyTitleAux (c.isAlpha) cs

/-- Python `s.title()`. -/
def pyTitle (s : String) : String := ⟨pyTitleAux false s.data⟩

/-- Python `s.strip()`: remove whitespace from both ends. -/
def pyStrip (s : String) : String :=
  ⟨(s.data.dropWhile pyIsSpace).rdropWhile pyIsSpace⟩

/-- The normalization used throughout `app.py`: `raw.strip().title()`
(in `load_data` as `.str.strip().str.title()`, in `handle_guess` as
`st.session_state.current_guess.strip().title()`). -/
def normalize (s : String) : String := pyTitle (pyStrip s)

/-- A raw CSV row of a map data file: columns `name`, `x`, `y`. -/
structure RawRow where
  name : String
  x : ℚ
  y : ℚ
deriving DecidableEq

/-- A row of the loaded dataframe: the CSV columns plus the computed
`name_norm` column. -/
structure Row where
  name : String
  name_norm : String
  x : ℚ
  y : ℚ
deriving DecidableEq

/-- Model of `load_data`: read the rows and add
`df["name_norm"] = df["name"].astype(str).str.strip().str.title()`. -/
def load_data (rows : List RawRow) : List Row :=
  rows.map fun r => ⟨r.name, normalize r.name, r.x, r.y⟩

/-- The set `all_names = set(df["name_norm"].tolist())`. -/
def all_names (df : List Row) : Finset String :=
  (df.map Row.name_norm).toFinset

/-- The count `TOTAL = len(all_names)`. -/
def TOTAL (df : List Row) : ℕ := (all_names df).card

/-- Python `round` on a rational: round half to even (banker's rounding). -/
def pyRound (q : ℚ) : ℤ :=
  if q - ⌊q⌋ < 1/2 then ⌊q⌋
  else if 1/2 < q - ⌊q⌋ then ⌊q⌋ + 1
  else if ⌊q⌋ % 2 = 0 then ⌊q⌋ else ⌊q⌋ + 1

/-- Model of `turtle_to_pixel`: `px = int(round(x + width / 2))`,
`py = int(round(height / 2 - y))`. -/
def turtle_to_pixel (x y : ℚ) (width height : ℕ) : ℤ × ℤ :=
  (pyRound (x + width / 2), pyRound (height / 2 - y))

/-- The result of `draw.textbbox((0, 0), text, font=font)`:
`(left, top, right, bottom)`. -/
structure BBox where
  left : ℤ
  top : ℤ
  right : ℤ
  bottom : ℤ
deriving DecidableEq

/-- One `draw.text((px - tw/2, py - th/2), text, ...)` call: the position
(a pair of Python floats) and the text drawn. -/
structure DrawCmd where
  pos : ℚ × ℚ
  text : String
deriving DecidableEq

/-- The body of the rendering loop of `render_map_with_labels`:
for each guessed name take the first dataframe row whose `name_norm`
matches (`df[df["name_norm"] == name].iloc[0]`; `none` models the
`IndexError` when no row matches), transform its coordinates and emit
a draw command for the display name `row["name"]`, positioned at
`(px - tw/2, py - th/2)` where `tw, th = draw.textbbox((0,0), text)[2:]`
(i.e. `right` and `bottom` of the bounding box). -/
def renderLoop (df : List Row) (width height : ℕ) (textbbox : String → BBox) :
    List String → Option (List DrawCmd)
  | [] => some []
  | n :: rest =>
    match df.find? (fun r => r.name_norm == n) with
    | none => none
    | some row =>
      match renderLoop df width height textbbox rest with
      | none => none
      | some cmds =>
        let p := turtle_to_pixel row.x row.y width height
        let bb := textbbox row.name
        some ({ pos := ((p.1 : ℚ) - (bb.right : ℚ) / 2,
                        (p.2 : ℚ) - (bb.bottom : ℚ) / 2),
                text := row.name } :: cmds)

/-- Model of `render_map_with_labels(guessed_names, df, base_img)`: the list of draw
commands executed over the copied base image. -/
def render_map_with_labels (guessed_names : List String) (df : List Row)
    (width height : ℕ) (textbbox : String → BBox) : Option (List DrawCmd) :=
  renderLoop df width height textbbox guessed_names

/-- The outcome displayed by `handle_guess`: `st.success` (correct),
`st.info` (already guessed), `st.error` (invalid), each carrying the
string interpolated into the message. -/
inductive Outcome where
  | correct (name : String)
  | alreadyGuessed (name : String)
  | invalid (name : String)
deriving DecidableEq

/-- Model of `handle_guess`: normalize the raw input, then
`if guess in all_names: if guess not in guessed: append / success
else info; elif guess: error`. Returns the updated guessed list and
the displayed outcome (`none` = nothing displayed). -/
def handle_guess (names : Finset String) (guessed : List String)
    (raw : String) : List String × Option Outcome :=
  let guess := normalize raw
  if guess ∈ names then
    if guess ∉ guessed then (guessed ++ [guess], some (.correct guess))
    else (guessed, some (.alreadyGuessed guess))
  else if guess ≠ "" then (guessed, some (.invalid guess))
  else (guessed, none)

/-- The persistent Streamlit session state: `st.session_state.map_choice`
and `st.session_state.guessed` (`current_guess` is transient). -/
structure GameSession where
  map_choice : String
  guessed : List String
deriving DecidableEq

/-- The user events a session processes. -/
inductive Event where
  | select (m : String)
  | guess (raw : String)
  | reset

/-- One script run of `app.py` processing one event, parametrized by the
registry `regions` mapping a map choice to its loaded dataframe:
selecting a different map resets `guessed` (lines 64-68), a guess runs
`handle_guess` against the active map's `all_names`, and the reset
button clears `guessed` (lines 114-116). -/
def step (regions : String → List Row) (s : GameSession) : Event → GameSession
  | .select m => if m = s.map_choice then s else ⟨m, []⟩
  | .guess raw =>
      ⟨s.map_choice,
       (handle_guess (all_names (regions s.map_choice)) s.guessed raw).1⟩
  | .reset => ⟨s.map_choice, []⟩

/-- The session states reachable from a fresh start (lines 59-63
initialize `guessed = []` for the first selected map) by any sequence
of map selections, guesses and resets. -/
inductive Reachable (regions : String → List Row) : GameSession → Prop
  | init (m : String) : Reachable regions ⟨m, []⟩
  | step (s : GameSession) (e : Event) :
      Reachable regions s → Reachable regions (step regions s e)

/-- The `missing.csv` export: header `name`, one row per element of
`sorted(list(all_names - set(guessed)))`. -/
structure Table where
  header : String
  rows : List String
deriving DecidableEq

/-- Lexicographic comparison of character lists by code point, the order
Python's `sorted` uses on strings. -/
def listLe : List Char → List Char → Bool
  | [], _ => true
  | _ :: _, [] => false
  | a :: as, b :: bs => if a < b then true else if b < a then false else listLe as bs

/-- Python's `<=` on strings: lexicographic by code point. -/
def strLe (a b : String) : Bool := listLe a.data b.data

/-- The list `missing = sorted(list(all_names - set(guessed)))`: the distinct
normalized names not guessed yet, sorted by Python's string order. -/
def missing (df : List Row) (guessed : List String) : List String :=
  List.insertionSort (fun a b => strLe a b = true)
    (((df.map Row.name_norm).dedup).filter (fun n => n ∉ guessed))

/-- The `missing.csv` export packaged with its single column header:
`pd.DataFrame(missing, columns=["name"])`. -/
def missing_table (df : List Row) (guessed : List String) : Table :=
  ⟨"name", missing df guessed⟩

/-! Concrete data used by witnesses. -/

/-- The two-region example dataset (`Texas`/`Maine`). -/
def dfW : List Row := load_data [⟨"Texas", 10, 20⟩, ⟨"Maine", -5, 30⟩]

/-- A one-region dataset sharing `Texas` with `dfW`. -/
def dfW2 : List Row := load_data [⟨"Texas", 10, 20⟩]

/-- A registry with two maps that share the region `Texas`. -/
def regionsW : String → List Row :=
  fun m => if m = "A" then dfW2 else dfW

/-! Theorems about the embedded program. -/

/-- C5: for every coordinate pair and base image dimensions,
`turtle_to_pixel` maps `(x, y)` to `(round(x + w/2), round(h/2 - y))`
(Python rounding), and on a 100×100 image it maps `(10, 20)` to `(60, 30)`. -/
theorem turtle_to_pixel_spec :
    (∀ (x y : ℚ) (w h : ℕ),
      turtle_to_pixel x y w h = (pyRound (x + w / 2), pyRound (h / 2 - y))) ∧
    turtle_to_pixel 10 20 100 100 = (60, 30) := by
  refine ⟨fun x y w h => rfl, ?_⟩
  norm_num [turtle_to_pixel, pyRound]

/-- C2: `handle_guess` leaves the guessed list unchanged whenever the
outcome it displays is not `Correct` (invalid guess, duplicate guess, or
empty input displaying nothing). -/
theorem handle_guess_unchanged_unless_correct (names : Finset String)
    (guessed : List String) (raw : String)
    (h : ∀ r, (handle_guess names guessed raw).2 ≠ some (Outcome.correct r)) :
    (handle_guess names guessed raw).1 = guessed := by
  by_cases h1 : normalize raw ∈ names
  · by_cases h2 : normalize raw ∈ guessed
    · simp [handle_guess, h1, h2]
    · exact absurd (show (handle_guess names guessed raw).2 =
          some (Outcome.correct (normalize raw)) by simp [handle_guess, h1, h2])
        (h (normalize raw))
  · simp only [handle_guess, if_neg h1]
    split <;> rfl

/-- Witness for C2: the invalid guess `" ohio "` on the Texas/Maine map
leaves an empty guessed list empty. -/
theorem handle_guess_unchanged_unless_correct_witness :
    (∀ r, (handle_guess (all_names dfW) [] " ohio ").2 ≠ some (Outcome.correct r)) ∧
    (handle_guess (all_names dfW) [] " ohio ").1 = [] :=
  have hne : ∀ r, (handle_guess (all_names dfW) [] " ohio ").2 ≠
      some (Outcome.correct r) := by
    intro r hr
    rw [show (handle_guess (all_names dfW) [] " ohio ").2 =
      some (Outcome.invalid "Ohio") from by decide] at hr
    simp at hr
  ⟨hne, handle_guess_unchanged_unless_correct (all_names dfW) [] " ohio " hne⟩

/-- C9: if every guessed name occurs among the dataframe's `name_norm`
entries, every per-name row selection in `render_map_with_labels` finds a
row, so the `.iloc[0]` step never raises and rendering is total. -/
theorem render_total (guessed : List String) (df : List Row)
    (width height : ℕ) (textbbox : String → BBox)
    (hmem : ∀ n ∈ guessed, ∃ r ∈ df, r.name_norm = n) :
    (render_map_with_labels guessed df width height textbbox).isSome = true := by
  induction guessed with
  | nil => simp [render_map_with_labels, renderLoop]
  | cons n rest ih =>
    obtain ⟨r, hr, hrn⟩ := hmem n (by simp)
    have hfind : (df.find? (fun r => r.name_norm == n)).isSome := by
      rw [List.find?_isSome]
      exact ⟨r, hr, by simp [hrn]⟩
    obtain ⟨row, hrow⟩ := Option.isSome_iff_exists.mp hfind
    have hrest := ih (fun m hm => hmem m (by simp [hm]))
    obtain ⟨cmds, hcmds⟩ := Option.isSome_iff_exists.mp
      (by simpa [render_map_with_labels] using hrest)
    simp [render_map_with_labels, renderLoop, hrow, hcmds]

/-- Witness for C9: rendering the guessed list `["Texas"]` over the
Texas/Maine dataframe succeeds. -/
theorem render_total_witness :
    (∀ n ∈ ["Texas"], ∃ r ∈ dfW, r.name_norm = n) ∧
    (render_map_with_labels ["Texas"] dfW 100 100 (fun _ => ⟨0, 0, 30, 11⟩)).isSome = true :=
  ⟨by decide, render_total ["Texas"] dfW 100 100 (fun _ => ⟨0, 0, 30, 11⟩) (by decide)⟩

/-- C6: when the text bounding boxes anchored at `(0, 0)` have zero `left`
and `top` (as for the default font), `render_map_with_labels` draws, for
each guessed name, the first matching row's canonical display name at
`(pixelX - textWidth/2, pixelY - textHeight/2)`, the position that centers
the text's bounding box on the transformed pixel coordinate. -/
theorem render_draws_centered (guessed : List String) (df : List Row)
    (width height : ℕ) (textbbox : String → BBox)
    (hmem : ∀ n ∈ guessed, ∃ r ∈ df, r.name_norm = n)
    (hbb : ∀ t, (textbbox t).left = 0 ∧ (textbbox t).top = 0) :
    render_map_with_labels guessed df width height textbbox =
      some (guessed.filterMap fun n =>
        (df.find? fun r => r.name_norm == n).map fun row =>
          { pos := (((turtle_to_pixel row.x row.y width height).1 : ℚ) -
                      ((((textbbox row.name).right - (textbbox row.name).left : ℤ)) : ℚ) / 2,
                    ((turtle_to_pixel row.x row.y width height).2 : ℚ) -
                      ((((textbbox row.name).bottom - (textbbox row.name).top : ℤ)) : ℚ) / 2),
            text := row.name }) := by
  induction guessed with
  | nil => simp [render_map_with_labels, renderLoop]
  | cons n rest ih =>
    obtain ⟨r, hr, hrn⟩ := hmem n (by simp)
    have hfind : (df.find? (fun r => r.name_norm == n)).isSome := by
      rw [List.find?_isSome]
      exact ⟨r, hr, by simp [hrn]⟩
    obtain ⟨row, hrow⟩ := Option.isSome_iff_exists.mp hfind
    have hrest := ih (fun m hm => hmem m (by simp [hm]))
    simp only [render_map_with_labels] at hrest
    simp [render_map_with_labels, renderLoop, hrow, hrest, (hbb row.name).1,
      (hbb row.name).2]

/-- Witness for C6: one label for `["Texas"]` on a 100×100 image with a
30×11 text box is drawn at `(60 - 15, 30 - 5.5)`. -/
theorem render_draws_centered_witness :
    (∀ n ∈ ["Texas"], ∃ r ∈ dfW, r.name_norm = n) ∧
    (∀ t : String, ((fun _ : String => BBox.mk 0 0 30 11) t).left = 0 ∧
      ((fun _ : String => BBox.mk 0 0 30 11) t).top = 0) ∧
    render_map_with_labels ["Texas"] dfW 100 100 (fun _ => ⟨0, 0, 30, 11⟩) =
      some (["Texas"].filterMap fun n =>
        (dfW.find? fun r => r.name_norm == n).map fun row =>
          { pos := (((turtle_to_pixel row.x row.y 100 100).1 : ℚ) -
                      ((((fun _ : String => BBox.mk 0 0 30 11) row.name).right -
                        ((fun _ : String => BBox.mk 0 0 30 11) row.name).left : ℤ) : ℚ) / 2,
                    ((turtle_to_pixel row.x row.y 100 100).2 : ℚ) -
                      ((((fun _ : String => BBox.mk 0 0 30 11) row.name).bottom -
                        ((fun _ : String => BBox.mk 0 0 30 11) row.name).top : ℤ) : ℚ) / 2),
            text := row.name }) :=
  ⟨by decide, fun t => ⟨rfl, rfl⟩,
    render_draws_centered ["Texas"] dfW 100 100 (fun _ => ⟨0, 0, 30, 11⟩)
      (by decide) (fun t => ⟨rfl, rfl⟩)⟩

/-- C7: selecting a different map resets the guessed list to empty and the
session's total to the new map's region count, even when the two maps share
region names. -/
theorem map_switch_resets (regions : String → List Row) (s : GameSession)
    (m : String) (h : m ≠ s.map_choice) :
    (step regions s (.select m)).guessed = [] ∧
    (step regions s (.select m)).map_choice = m ∧
    TOTAL (regions (step regions s (.select m)).map_choice) =
      (all_names (regions m)).card := by
  simp [step, h, TOTAL]

/-- Witness for C7: switching from map `"A"` to map `"B"` (which shares the
region `Texas`) discards the guessed list `["Texas"]`. -/
theorem map_switch_resets_witness :
    ("B" : String) ≠ "A" ∧
    ((step regionsW ⟨"A", ["Texas"]⟩ (.select "B")).guessed = [] ∧
     (step regionsW ⟨"A", ["Texas"]⟩ (.select "B")).map_choice = "B" ∧
     TOTAL (regionsW (step regionsW ⟨"A", ["Texas"]⟩ (.select "B")).map_choice) =
       (all_names (regionsW "B")).card) :=
  ⟨by decide, map_switch_resets regionsW ⟨"A", ["Texas"]⟩ "B" (by decide)⟩

/-- Shared invariant of reachable sessions: the guessed list has no
duplicates and only holds normalized names of the active map. -/
theorem reachable_nodup_mem (regions : String → List Row) (s : GameSession)
    (h : Reachable regions s) :
    s.guessed.Nodup ∧ ∀ n ∈ s.guessed, n ∈ all_names (regions s.map_choice) := by
  induction h with
  | init m => simp
  | step s e _ ih =>
    obtain ⟨ihn, ihm⟩ := ih
    cases e with
    | select m =>
      by_cases hm : m = s.map_choice
      · simpa [step, hm] using ⟨ihn, ihm⟩
      · simp [step, hm]
    | guess raw =>
      by_cases h1 : normalize raw ∈ all_names (regions s.map_choice)
      · by_cases h2 : normalize raw ∈ s.guessed
        · simpa [step, handle_guess, h1, h2] using ⟨ihn, ihm⟩
        · refine ⟨?_, ?_⟩
          · have hg : (step regions s (.guess raw)).guessed =
                s.guessed ++ [normalize raw] := by
              simp [step, handle_guess, h1, h2]
            rw [hg]
            refine List.Nodup.append ihn (List.nodup_singleton _) ?_
            intro x hx hx'
            rw [List.mem_singleton] at hx'
            exact h2 (hx' ▸ hx)
          · intro n hn
            simp only [step, handle_guess, if_pos h1, if_pos h2] at hn ⊢
            rcases List.mem_append.mp hn with hn | hn
            · exact ihm n hn
            · simpa using (List.mem_singleton.mp hn) ▸ h1
      · refine ⟨?_, ?_⟩
        · simp only [step, handle_guess, if_neg h1]
          split <;> exact ihn
        · intro n hn
          simp only [step, handle_guess, if_neg h1] at hn ⊢
          split at hn <;> exact ihm n hn
    | reset => simp [step]

/-- C3: in every reachable session state every guessed name belongs to the
active map's set of normalized region names, and the session total equals
the size of that set. -/
theorem reachable_guessed_subset (regions : String → List Row)
    (s : GameSession) (h : Reachable regions s) :
    (∀ n ∈ s.guessed, n ∈ all_names (regions s.map_choice)) ∧
    TOTAL (regions s.map_choice) = (all_names (regions s.map_choice)).card :=
  ⟨(reachable_nodup_mem regions s h).2, rfl⟩

/-- Witness for C3: the state reached by guessing `" texas "` on map `"A"`
satisfies the invariant. -/
theorem reachable_guessed_subset_witness :
    Reachable regionsW (step regionsW ⟨"A", []⟩ (.guess " texas ")) ∧
    ((∀ n ∈ (step regionsW ⟨"A", []⟩ (.guess " texas ")).guessed,
        n ∈ all_names (regionsW (step regionsW ⟨"A", []⟩ (.guess " texas ")).map_choice)) ∧
     TOTAL (regionsW (step regionsW ⟨"A", []⟩ (.guess " texas ")).map_choice) =
       (all_names (regionsW (step regionsW ⟨"A", []⟩ (.guess " texas ")).map_choice)).card) :=
  have hr : Reachable regionsW (step regionsW ⟨"A", []⟩ (.guess " texas ")) :=
    .step _ _ (.init "A")
  ⟨hr, reachable_guessed_subset regionsW _ hr⟩

/-- C10: in every reachable session state the guessed list has no
duplicates, its length is at most the active map's region count, the
progress fraction is at most 1, and the completion test
`len(guessed) == TOTAL` holds exactly when every region is guessed. -/
theorem reachable_no_duplicates (regions : String → List Row)
    (s : GameSession) (h : Reachable regions s) :
    s.guessed.Nodup ∧
    s.guessed.length ≤ TOTAL (regions s.map_choice) ∧
    ((s.guessed.length : ℚ) / (TOTAL (regions s.map_choice) : ℚ) ≤ 1) ∧
    (s.guessed.length = TOTAL (regions s.map_choice) ↔
      ∀ n ∈ all_names (regions s.map_choice), n ∈ s.guessed) := by
  obtain ⟨hnd, hmem⟩ := reachable_nodup_mem regions s h
  have hsub : s.guessed.toFinset ⊆ all_names (regions s.map_choice) := by
    intro n hn
    exact hmem n (List.mem_toFinset.mp hn)
  have hcard : s.guessed.toFinset.card = s.guessed.length :=
    List.toFinset_card_of_nodup hnd
  have hle : s.guessed.length ≤ TOTAL (regions s.map_choice) := by
    rw [← hcard]
    exact Finset.card_le_card hsub
  refine ⟨hnd, hle, ?_, ?_, ?_⟩
  · rcases Nat.eq_zero_or_pos (TOTAL (regions s.map_choice)) with h0 | hpos
    · have hl0 : s.guessed.length = 0 := by omega
      rw [hl0, h0]
      norm_num
    · rw [div_le_one (by exact_mod_cast hpos)]
      exact_mod_cast hle
  · intro heq n hn
    have : s.guessed.toFinset = all_names (regions s.map_choice) :=
      Finset.eq_of_subset_of_card_le hsub (by rw [hcard, heq]; exact le_rfl)
    exact List.mem_toFinset.mp (this ▸ hn)
  · intro hall
    have : all_names (regions s.map_choice) ⊆ s.guessed.toFinset := by
      intro n hn
      exact List.mem_toFinset.mpr (hall n hn)
    have heq : s.guessed.toFinset = all_names (regions s.map_choice) :=
      Finset.Subset.antisymm hsub this
    rw [← hcard, heq]
    rfl

/-- Witness for C10: after guessing `" texas "` and then `"Maine"` on map
`"B"`, the guessed list is duplicate-free and the completion test matches. -/
theorem reachable_no_duplicates_witness :
    Reachable regionsW
      (step regionsW (step regionsW ⟨"B", []⟩ (.guess " texas ")) (.guess "Maine")) ∧
    letI s := step regionsW (step regionsW ⟨"B", []⟩ (.guess " texas ")) (.guess "Maine")
    (s.guessed.Nodup ∧
     s.guessed.length ≤ TOTAL (regionsW s.map_choice) ∧
     ((s.guessed.length : ℚ) / (TOTAL (regionsW s.map_choice) : ℚ) ≤ 1) ∧
     (s.guessed.length = TOTAL (regionsW s.map_choice) ↔
       ∀ n ∈ all_names (regionsW s.map_choice), n ∈ s.guessed)) :=
  have hr : Reachable regionsW
      (step regionsW (step regionsW ⟨"B", []⟩ (.guess " texas ")) (.guess "Maine")) :=
    .step _ _ (.step _ _ (.init "B"))
  ⟨hr, reachable_no_duplicates regionsW _ hr⟩

/-- Counterexample for C1 as stated: for the raw guess `" ohio "` on the
Texas/Maine map the displayed `Invalid` outcome carries the normalized
string `"Ohio"`, not the raw input `" ohio "`. -/
theorem handle_guess_invalid_carries_normalized :
    (handle_guess (all_names dfW) [] " ohio ").2 = some (Outcome.invalid "Ohio") ∧
    some (Outcome.invalid "Ohio") ≠ some (Outcome.invalid " ohio ") := by
  constructor
  · decide
  · decide

/-- C1 (amended): provided the empty string is not a region name,
`handle_guess` follows the spec's algorithm with the `Invalid` outcome
carrying the normalized input: normalize the raw guess; if the result is
empty, display nothing and change nothing; otherwise if it is not an
active region name, report `Invalid` with the normalized input; otherwise
if already guessed, report `AlreadyGuessed`; otherwise append it to the
guessed list (preserving insertion order) and report `Correct`. -/
theorem handle_guess_algorithm (names : Finset String) (guessed : List String)
    (raw : String) (hempty : "" ∉ names) :
    handle_guess names guessed raw =
      if normalize raw = "" then (guessed, none)
      else if normalize raw ∉ names then
        (guessed, some (.invalid (normalize raw)))
      else if normalize raw ∈ guessed then
        (guessed, some (.alreadyGuessed (normalize raw)))
      else (guessed ++ [normalize raw], some (.correct (normalize raw))) := by
  by_cases h0 : normalize raw = ""
  · simp [handle_guess, h0, hempty]
  · by_cases h1 : normalize raw ∈ names
    · by_cases h2 : normalize raw ∈ guessed
      · simp [handle_guess, h0, h1, h2]
      · simp [handle_guess, h0, h1, h2]
    · simp [handle_guess, h0, h1]

/-- Witness for C1: on the Texas/Maine map the four branches of the amended
algorithm agree with `handle_guess` for the raw input `" texas "`. -/
theorem handle_guess_algorithm_witness :
    ("" ∉ all_names dfW) ∧
    handle_guess (all_names dfW) [] " texas " =
      (if normalize " texas " = "" then ([], none)
       else if normalize " texas " ∉ all_names dfW then
         ([], some (.invalid (normalize " texas ")))
       else if normalize " texas " ∈ ([] : List String) then
         ([], some (.alreadyGuessed (normalize " texas ")))
       else ([] ++ [normalize " texas "], some (.correct (normalize " texas ")))) :=
  ⟨by decide, handle_guess_algorithm (all_names dfW) [] " texas " (by decide)⟩

/-- Head inversion for the lexicographic comparison. -/
theorem listLe_cons_iff {a b : Char} {as bs : List Char} :
    listLe (a :: as) (b :: bs) = true ↔
      a < b ∨ (a = b ∧ listLe as bs = true) := by
  rcases lt_trichotomy a b with h | h | h
  · simp [listLe, h]
  · subst h
    simp [listLe, lt_irrefl]
  · simp [listLe, h, not_lt_of_gt h, h.ne']

/-- The lexicographic comparison is total. -/
theorem listLe_total : ∀ as bs : List Char,
    listLe as bs = true ∨ listLe bs as = true
  | [], _ => .inl rfl
  | _ :: _, [] => .inr rfl
  | a :: as, b :: bs => by
    rcases lt_trichotomy a b with h | h | h
    · left
      simp [listLe, h]
    · subst h
      simpa [listLe_cons_iff] using listLe_total as bs
    · right
      simp [listLe, h]

/-- The lexicographic comparison is transitive. -/
theorem listLe_trans : ∀ {as bs cs : List Char},
    listLe as bs = true → listLe bs cs = true → listLe as cs = true
  | [], _, _, _, _ => rfl
  | _ :: _, [], _, h1, _ => by simp [listLe] at h1
  | _ :: _, _ :: _, [], _, h2 => by simp [listLe] at h2
  | a :: as, b :: bs, c :: cs, h1, h2 => by
    rw [listLe_cons_iff] at h1 h2 ⊢
    rcases h1 with h1 | ⟨rfl, h1⟩
    · rcases h2 with h2 | ⟨rfl, h2⟩
      · exact .inl (lt_trans h1 h2)
      · exact .inl h1
    · rcases h2 with h2 | ⟨rfl, h2⟩
      · exact .inl h2
      · exact .inr ⟨rfl, listLe_trans h1 h2⟩

/-- The lexicographic comparison is the complement of the reverse strict
lexicographic order. -/
theorem listLe_iff_not_lex : ∀ as bs : List Char,
    listLe as bs = true ↔ ¬ List.Lex (· < ·) bs as
  | [], bs => ⟨fun _ => List.Lex.not_nil_right _ _, fun _ => rfl⟩
  | a :: as, [] => ⟨fun h => Bool.noConfusion h, fun h => absurd List.Lex.nil h⟩
  | a :: as, b :: bs => by
    rw [listLe_cons_iff]
    constructor
    · rintro (h | ⟨rfl, h⟩) hlex
      · cases hlex with
        | rel h' => exact lt_asymm h h'
        | cons h' => exact lt_irrefl a h
      · cases hlex with
        | rel h' => exact lt_irrefl a h'
        | cons h' => exact (listLe_iff_not_lex as bs).mp h h'
    · intro h
      rcases lt_trichotomy a b with hab | rfl | hba
      · exact .inl hab
      · refine .inr ⟨rfl, (listLe_iff_not_lex as bs).mpr ?_⟩
        intro hlex
        exact h (List.Lex.cons hlex)
      · exact absurd (List.Lex.rel hba) h

/-- The comparison `strLe` coincides with the standard order on strings. -/
theorem strLe_iff_le {a b : String} : strLe a b = true ↔ a ≤ b := by
  rw [strLe, listLe_iff_not_lex]
  constructor
  · intro h
    rw [← not_lt]
    intro hlt
    exact h (String.lt_iff_toList_lt.mp hlt)
  · intro h hlex
    rw [← not_lt] at h
    exact h (String.lt_iff_toList_lt.mpr hlex)

/-- Counterexample for C4 as stated: for a dataset whose canonical name is
`"TEXAS"`, the missing-names export row holds the normalized name
`"Texas"`, not the canonical name. -/
theorem missing_rows_not_canonical :
    (missing_table (load_data [⟨"TEXAS", 10, 20⟩]) []).rows = ["Texas"] ∧
    ("Texas" : String) ≠ "TEXAS" := by
  constructor
  · decide
  · decide

/-- C4 (amended): the missing-names export is a single-column table with
header `name`, containing exactly one row per distinct normalized region
name not yet guessed, each row holding the normalized name, sorted
alphabetically; it depends only on the set of guessed names. -/
theorem missing_export_spec (df : List Row) (guessed guessed' : List String)
    (hset : guessed.toFinset = guessed'.toFinset) :
    (missing_table df guessed).header = "name" ∧
    List.Sorted (· ≤ ·) (missing_table df guessed).rows ∧
    (missing_table df guessed).rows.Nodup ∧
    (∀ n, n ∈ (missing_table df guessed).rows ↔
      n ∈ all_names df ∧ n ∉ guessed) ∧
    missing_table df guessed = missing_table df guessed' := by
  haveI hTot : IsTotal String (fun a b => strLe a b = true) :=
    ⟨fun a b => listLe_total a.data b.data⟩
  haveI hTrans : IsTrans String (fun a b => strLe a b = true) :=
    ⟨fun _ _ _ => listLe_trans⟩
  refine ⟨rfl, ?_, ?_, ?_, ?_⟩
  · exact (List.sorted_insertionSort _ _).imp (fun h => strLe_iff_le.mp h)
  · exact (List.perm_insertionSort _ _).nodup_iff.mpr
      ((List.nodup_dedup _).filter _)
  · intro n
    show n ∈ missing df guessed ↔ _
    rw [missing, List.mem_insertionSort, List.mem_filter]
    simp [List.mem_dedup, all_names]
  · show Table.mk _ (missing df guessed) = Table.mk _ (missing df guessed')
    have : missing df guessed = missing df guessed' := by
      rw [missing, missing]
      congr 1
      apply List.filter_congr
      intro x _
      have : x ∈ guessed ↔ x ∈ guessed' := by
        rw [← List.mem_toFinset, ← List.mem_toFinset, hset]
      simp [this]
    rw [this]

/-- Witness for C4: on the Texas/Maine map with `["Texas"]` guessed (and a
duplicate-listing of the same guess set) the export properties hold. -/
theorem missing_export_spec_witness :
    (["Texas"] : List String).toFinset = (["Texas", "Texas"] : List String).toFinset ∧
    ((missing_table dfW ["Texas"]).header = "name" ∧
     List.Sorted (· ≤ ·) (missing_table dfW ["Texas"]).rows ∧
     (missing_table dfW ["Texas"]).rows.Nodup ∧
     (∀ n, n ∈ (missing_table dfW ["Texas"]).rows ↔
       n ∈ all_names dfW ∧ n ∉ (["Texas"] : List String)) ∧
     missing_table dfW ["Texas"] = missing_table dfW ["Texas", "Texas"]) :=
  ⟨by decide, missing_export_spec dfW ["Texas"] ["Texas", "Texas"] (by decide)⟩

/-! Character-level lemmas for title-casing. -/

/-- Decoding `Char.ofNat` of a valid scalar value by `toNat` gives it back. -/
theorem char_toNat_ofNat {n : Nat} (h : n < 55296) : (Char.ofNat n).toNat = n := by
  have hv : n.isValidChar := Or.inl h
  rw [Char.ofNat, dif_pos hv]
  simp [Char.ofNatAux, Char.toNat, UInt32.toNat]

/-- Characters are determined by their scalar value. -/
theorem char_eq_iff {c d : Char} : c = d ↔ c.toNat = d.toNat :=
  ⟨fun h => h ▸ rfl, fun h => Char.ext (UInt32.toNat.inj h)⟩

/-- Characterization of `Char.isUpper` by the scalar value. -/
theorem isUpper_iff {c : Char} : c.isUpper = true ↔ 65 ≤ c.toNat ∧ c.toNat ≤ 90 := by
  simp [Char.isUpper, UInt32.le_def, BitVec.le_def, Char.toNat, UInt32.toNat]

/-- Characterization of `Char.isLower` by the scalar value. -/
theorem isLower_iff {c : Char} : c.isLower = true ↔ 97 ≤ c.toNat ∧ c.toNat ≤ 122 := by
  simp [Char.isLower, UInt32.le_def, BitVec.le_def, Char.toNat, UInt32.toNat]

/-- Characterization of `Char.isAlpha` by the scalar value. -/
theorem isAlpha_iff {c : Char} : c.isAlpha = true ↔
    (65 ≤ c.toNat ∧ c.toNat ≤ 90) ∨ (97 ≤ c.toNat ∧ c.toNat ≤ 122) := by
  simp [Char.isAlpha, isUpper_iff, isLower_iff]

/-- The scalar value of `Char.toUpper`. -/
theorem toNat_toUpper (c : Char) :
    c.toUpper.toNat =
      if 97 ≤ c.toNat ∧ c.toNat ≤ 122 then c.toNat - 32 else c.toNat := by
  simp only [Char.toUpper]
  split
  · next h => exact char_toNat_ofNat (by omega)
  · rfl

/-- The scalar value of `Char.toLower`. -/
theorem toNat_toLower (c : Char) :
    c.toLower.toNat =
      if 65 ≤ c.toNat ∧ c.toNat ≤ 90 then c.toNat + 32 else c.toNat := by
  simp only [Char.toLower]
  split
  · next h => exact char_toNat_ofNat (by omega)
  · rfl

/-- Uppercasing preserves alphabeticity. -/
theorem isAlpha_toUpper (c : Char) : c.toUpper.isAlpha = c.isAlpha := by
  rw [Bool.eq_iff_iff, isAlpha_iff, isAlpha_iff, toNat_toUpper]
  split <;> omega

/-- Lowercasing preserves alphabeticity. -/
theorem isAlpha_toLower (c : Char) : c.toLower.isAlpha = c.isAlpha := by
  rw [Bool.eq_iff_iff, isAlpha_iff, isAlpha_iff, toNat_toLower]
  split <;> omega

/-- `Char.toUpper` is idempotent. -/
theorem toUpper_toUpper (c : Char) : c.toUpper.toUpper = c.toUpper := by
  rw [char_eq_iff]
  simp only [toNat_toUpper]
  split_ifs <;> omega

/-- `Char.toLower` is idempotent. -/
theorem toLower_toLower (c : Char) : c.toLower.toLower = c.toLower := by
  rw [char_eq_iff]
  simp only [toNat_toLower]
  split_ifs <;> omega

/-- Characterization of `pyIsSpace` by the scalar value. -/
theorem pyIsSpace_iff {c : Char} : pyIsSpace c = true ↔
    (c.toNat = 32 ∨ c.toNat = 9 ∨ c.toNat = 10 ∨ c.toNat = 13 ∨
     c.toNat = 11 ∨ c.toNat = 12) := by
  simp [pyIsSpace, char_eq_iff, show (' ' : Char).toNat = 32 from rfl,
    show ('\t' : Char).toNat = 9 from rfl, show ('\n' : Char).toNat = 10 from rfl,
    show ('\r' : Char).toNat = 13 from rfl, show ('\x0b' : Char).toNat = 11 from rfl,
    show ('\x0c' : Char).toNat = 12 from rfl]
  omega

/-- Alphabetic characters are not whitespace. -/
theorem isAlpha_not_space {c : Char} (h : c.isAlpha = true) :
    pyIsSpace c = false := by
  rw [isAlpha_iff] at h
  rcases Bool.eq_false_or_eq_true (pyIsSpace c) with ht | hf
  · rw [pyIsSpace_iff] at ht
    omega
  · exact hf

/-- The per-character title map preserves whitespace status. -/
theorem pyIsSpace_pyTitleChar (b : Bool) (c : Char) :
    pyIsSpace (pyTitleChar b c) = pyIsSpace c := by
  by_cases hα : c.isAlpha = true
  · cases b
    · rw [show pyTitleChar false c = c.toUpper by simp [pyTitleChar, hα],
        isAlpha_not_space (by rw [isAlpha_toUpper]; exact hα), isAlpha_not_space hα]
    · rw [show pyTitleChar true c = c.toLower by simp [pyTitleChar, hα],
        isAlpha_not_space (by rw [isAlpha_toLower]; exact hα), isAlpha_not_space hα]
  · simp [pyTitleChar, hα]

/-- The per-character title map preserves alphabeticity. -/
theorem isAlpha_pyTitleChar (b : Bool) (c : Char) :
    (pyTitleChar b c).isAlpha = c.isAlpha := by
  by_cases hα : c.isAlpha = true
  · cases b <;> simp [pyTitleChar, hα, isAlpha_toLower, isAlpha_toUpper]
  · simp [pyTitleChar, hα]

/-- The per-character title map is idempotent at a fixed flag. -/
theorem pyTitleChar_pyTitleChar (b : Bool) (c : Char) :
    pyTitleChar b (pyTitleChar b c) = pyTitleChar b c := by
  by_cases hα : c.isAlpha = true
  · cases b
    · simp [pyTitleChar, hα, isAlpha_toUpper, toUpper_toUpper]
    · simp [pyTitleChar, hα, isAlpha_toLower, toLower_toLower]
  · simp [pyTitleChar, hα]

/-- Title-casing is idempotent at any fixed starting flag. -/
theorem pyTitleAux_idem : ∀ (l : List Char) (b : Bool),
    pyTitleAux b (pyTitleAux b l) = pyTitleAux b l
  | [], _ => rfl
  | c :: cs, b => by
    simp [pyTitleAux, isAlpha_pyTitleChar, pyTitleChar_pyTitleChar,
      pyTitleAux_idem cs]

/-- Title-casing does not change which positions are whitespace. -/
theorem pyTitleAux_isSpace_map : ∀ (b : Bool) (l : List Char),
    (pyTitleAux b l).map pyIsSpace = l.map pyIsSpace
  | _, [] => rfl
  | b, c :: cs => by
    simp [pyTitleAux, pyIsSpace_pyTitleChar, pyTitleAux_isSpace_map _ cs]

/-! Strip-related list lemmas. -/

/-- If applying `dropWhile` keeps a cons intact, the head fails the
predicate. -/
theorem head_not_of_dropWhile_eq_self {p : Char → Bool} (a : Char)
    (as : List Char) (h : (a :: as).dropWhile p = a :: as) : p a = false := by
  have := List.dropWhile_eq_self_iff.mp h (by simp)
  simpa using this

/-- Applying `dropWhile` fixes a list whenever it fixes another list with
the same predicate profile. -/
theorem dropWhile_eq_self_congr {p : Char → Bool} :
    ∀ (l1 l2 : List Char), l1.map p = l2.map p → l2.dropWhile p = l2 →
      l1.dropWhile p = l1
  | [], _, _, _ => rfl
  | a :: as, [], h, _ => by simp at h
  | a :: as, b :: bs, h, h2 => by
    simp only [List.map_cons, List.cons.injEq] at h
    have hb := head_not_of_dropWhile_eq_self _ _ h2
    rw [List.dropWhile_cons, h.1, hb]
    simp

/-- A list is fixed by `rdropWhile` iff its reverse is fixed by `dropWhile`. -/
theorem rdropWhile_eq_self_iff_rev {p : Char → Bool} {l : List Char} :
    l.rdropWhile p = l ↔ l.reverse.dropWhile p = l.reverse := by
  rw [List.rdropWhile]
  constructor
  · intro h
    simpa using congrArg List.reverse h
  · intro h
    rw [h, List.reverse_reverse]

/-- Dropping from the left fixes the result of `rdropWhile` when it fixed
the input. -/
theorem dropWhile_rdropWhile {p : Char → Bool} {v : List Char}
    (hv : v.dropWhile p = v) : (v.rdropWhile p).dropWhile p = v.rdropWhile p := by
  cases hu : v.rdropWhile p with
  | nil => rfl
  | cons c u' =>
    obtain ⟨t, ht⟩ := List.rdropWhile_prefix p v
    rw [hu] at ht
    have hc : p c = false := by
      apply head_not_of_dropWhile_eq_self c (u' ++ t)
      rw [← List.cons_append, ht]
      exact hv
    rw [List.dropWhile_cons, hc]
    simp

/-- The stripped-then-titled character list is already stripped. -/
theorem strip_title_strip {l : List Char} :
    let u := (l.dropWhile pyIsSpace).rdropWhile pyIsSpace
    let t := pyTitleAux false u
    (t.dropWhile pyIsSpace).rdropWhile pyIsSpace = t := by
  intro u t
  have hu1 : u.dropWhile pyIsSpace = u :=
    dropWhile_rdropWhile (List.dropWhile_idempotent _ _)
  have hu2 : u.rdropWhile pyIsSpace = u := List.rdropWhile_idempotent _ _
  have hmap : t.map pyIsSpace = u.map pyIsSpace := pyTitleAux_isSpace_map false u
  have ht1 : t.dropWhile pyIsSpace = t := dropWhile_eq_self_congr _ _ hmap hu1
  have ht2 : t.rdropWhile pyIsSpace = t := by
    rw [rdropWhile_eq_self_iff_rev]
    apply dropWhile_eq_self_congr _ u.reverse
    · rw [List.map_reverse, List.map_reverse, hmap]
    · rw [← rdropWhile_eq_self_iff_rev]
      exact hu2
  rw [ht1, ht2]

/-- C8: the normalization `raw.strip().title()` is idempotent:
normalizing an already-normalized string changes nothing. -/
theorem normalize_idempotent (s : String) :
    normalize (normalize s) = normalize s := by
  show (⟨pyTitleAux false
      (((pyTitleAux false ((s.data.dropWhile pyIsSpace).rdropWhile
        pyIsSpace)).dropWhile pyIsSpace).rdropWhile pyIsSpace)⟩ : String) =
    ⟨pyTitleAux false ((s.data.dropWhile pyIsSpace).rdropWhile pyIsSpace)⟩
  rw [strip_title_strip, pyTitleAux_idem]

end MapGame
